import Mathlib

/-!
Verification of the long-tail CIFAR training script `lt_train.py`.

The definitions below are a shallow embedding of the script's numeric and
control logic: learning-rate scheduling (`adjust_learning_rate`), the
per-class weight policy of `main_worker` (`select_per_cls_weights`,
`drw_per_cls_weights`), the loss selector (`select_criterion`), the
best-accuracy checkpoint bookkeeping (`bestAcc`, `isBest`), the running
metric accumulation of `train` (`AverageMeter`, `train`), and the
confusion-matrix per-class accuracy of `validate` (`labelsOf`, `confusion`,
`cls_cnt`, `cls_hit`, `cls_acc`).  Floating point values are modelled as
rationals; Python fallibility (IndexError, NameError on an unbound name,
early return after a warning) is modelled with `Option`.
-/

namespace LtTrain

/-- One optimizer parameter group, with the fields SGD is built with in
`lt_train.py` (lr, momentum, weight_decay). -/
structure ParamGroup where
  lr : ℚ
  momentum : ℚ
  weight_decay : ℚ
deriving Repr, DecidableEq, Inhabited

/-- The piecewise learning rate of `adjust_learning_rate` (lines 259-269):
the 0-indexed `epoch` is first shifted by one, then warmup for the first five
epochs, a late decay by `0.0001` after epoch 180, an earlier decay by `0.01`
after epoch 160, and the base rate otherwise. -/
def adjust_lr (lr0 : ℚ) (epoch : ℕ) : ℚ :=
  let e := epoch + 1
  if e ≤ 5 then lr0 * e / 5
  else if 180 < e then lr0 * (1 / 10000)
  else if 160 < e then lr0 * (1 / 100)
  else lr0

/-- `adjust_learning_rate` (lines 259-271): writes the scheduled rate into
the `lr` field of every parameter group of the optimizer. -/
def adjust_learning_rate (groups : List ParamGroup) (epoch : ℕ) (lr0 : ℚ) :
    List ParamGroup :=
  groups.map (fun g => { g with lr := adjust_lr lr0 epoch })

/-- `betas = [0, 0.9999]` (line 130). -/
def betas : List ℚ := [0, 9999 / 10000]

/-- `effective_num = 1.0 - np.power(beta, cls_num)` for one class (line 131). -/
def effective_num (beta : ℚ) (n : ℕ) : ℚ := 1 - beta ^ n

/-- The un-normalized per-class weight `(1.0 - beta) / effective_num`
(line 132). -/
def raw_weight (beta : ℚ) (n : ℕ) : ℚ := (1 - beta) / effective_num beta n

/-- The DRW branch of `main_worker` (lines 127-134): index `epoch // 160`
into `betas` (`none` models the IndexError when the index is out of range),
compute the per-class raw weights and normalize them so that they sum to the
number of classes. -/
def drw_per_cls_weights (cls_num_list : List ℕ) (epoch : ℕ) :
    Option (List ℚ) :=
  match betas[epoch / 160]? with
  | none => none
  | some beta =>
      let raw := cls_num_list.map (raw_weight beta)
      let s := raw.sum
      some (raw.map (fun w => w / s * cls_num_list.length))

/-- The weight formula of the late DRW phase as the spec states it: class `c`
gets `(1 - 0.9999) / (1 - 0.9999 ^ n_c)`, rescaled so the weights sum to the
number of classes (written as multiplication by `len / sum`). -/
def drw_late_spec (l : List ℕ) : List ℚ :=
  let beta : ℚ := 9999 / 10000
  let raw := l.map (fun n => (1 - beta) / (1 - beta ^ n))
  raw.map (fun w => w * (l.length / raw.sum))

/-- The weight-selection step of `main_worker` (lines 124-136).  The outer
`Option` models whether the Python name `per_cls_weights` gets bound at all:
`none` means the branch fell through to the warning (any unknown rule) or
raised (DRW past the range of `betas`), so the later criterion construction
faults. -/
def select_per_cls_weights (train_rule : String) (cls_num_list : List ℕ)
    (epoch : ℕ) : Option (Option (List ℚ)) :=
  if train_rule = "None" then some none
  else if train_rule = "DRW" then
    (drw_per_cls_weights cls_num_list epoch).map some
  else none

/-- The criteria `main_worker` can construct.  `focal` is the criterion
`losses.FocalLoss` imported on line 22; it is part of the type so that the
claim that the selector can produce it is expressible. -/
inductive Criterion where
  | crossEntropy (weight : Option (List ℚ))
  | ldam (cls_num_list : List ℕ) (max_m : ℚ) (s : ℚ) (weight : Option (List ℚ))
  | focal (weight : Option (List ℚ))
deriving Repr, DecidableEq

/-- The per-class weight a criterion was constructed with. -/
def Criterion.weight : Criterion → Option (List ℚ)
  | .crossEntropy w => w
  | .ldam _ _ _ w => w
  | .focal w => w

/-- The loss selector of `main_worker` (lines 138-144): `'CE'` builds a
cross-entropy criterion, `'LDAM'` builds `LDAMLoss(max_m=0.5, s=30)`, and
every other `loss_type` warns and returns (`none`). -/
def select_criterion (loss_type : String) (per_cls_weights : Option (List ℚ))
    (cls_num_list : List ℕ) : Option Criterion :=
  if loss_type = "CE" then some (.crossEntropy per_cls_weights)
  else if loss_type = "LDAM" then
    some (.ldam cls_num_list (1 / 2) 30 per_cls_weights)
  else none

/-- `best_acc1` after the epochs whose validation accuracies are `accs`:
initialized to `0` (line 285) and updated by `best_acc1 = max(test_acc,
best_acc1)` (line 157) each epoch. -/
def bestAcc (accs : List ℚ) : ℚ := accs.foldl (fun b a => max a b) 0

/-- `is_best` at 0-indexed epoch `i` of a run whose validation accuracies are
`accs`: line 156 compares the epoch's accuracy against `best_acc1` as it
stood before the update. -/
def isBest (accs : List ℚ) (i : ℕ) : Bool :=
  decide (bestAcc (accs.take i) < accs.getD i 0)

/-- Modelled from the spec: `AverageMeter` of the repository's `utils`
module, which is not under src/ (only its import on line 20 and its call
sites are).  Per the spec's "accumulates running metrics", it keeps a running
sum of `value * n` and a running count of `n` so that `avg` is the
sample-weighted running average. -/
structure AverageMeter where
  sum : ℚ
  count : ℕ
deriving Repr, DecidableEq

/-- `update(val, n)`: add `val * n` to the sum and `n` to the count. -/
def AverageMeter.update (m : AverageMeter) (val : ℚ) (n : ℕ) : AverageMeter :=
  { sum := m.sum + val * n, count := m.count + n }

/-- The running average of an `AverageMeter`. -/
def AverageMeter.avg (m : AverageMeter) : ℚ := (m.sum) / (m.count : ℚ)

/-- The per-batch observations `train` folds over an epoch: the batch size
`input.size(0)`, the batch loss `loss.item()` and the batch top-1 accuracy
`test_acc[0]` (lines 182-191). -/
structure Batch where
  size : ℕ
  loss : ℚ
  acc1 : ℚ
deriving Repr, DecidableEq

/-- One loop iteration of `train` (lines 189-190): update the loss meter and
the top-1 meter with the batch's values, weighted by the batch size. -/
def trainStep (st : AverageMeter × AverageMeter) (b : Batch) :
    AverageMeter × AverageMeter :=
  (st.1.update b.acc1 b.size, st.2.update b.loss b.size)

/-- `train` (lines 174-207), restricted to its metric bookkeeping: fold the
epoch's batches through fresh meters and return `(top1.avg, losses.avg)`. -/
def train (batches : List Batch) : ℚ × ℚ :=
  let final := batches.foldl trainStep (⟨0, 0⟩, ⟨0, 0⟩)
  (final.1.avg, final.2.avg)

/-- The label axis of sklearn's `confusion_matrix(all_targets, all_preds)`
(line 242): the sorted list of the distinct labels occurring among targets or
predictions. -/
def labelsOf (ts ps : List ℕ) : List ℕ :=
  (List.range ((ts ++ ps).foldr max 0 + 1)).filter
    (fun l => decide (l ∈ ts ++ ps))

/-- The number of validation samples with true label `a` and predicted label
`b`. -/
def countPairs (ts ps : List ℕ) (a b : ℕ) : ℕ :=
  (ts.zip ps).countP (fun tp => tp.1 == a && tp.2 == b)

/-- Entry `(i, j)` of the confusion matrix of line 242: samples whose true
label is the `i`-th smallest occurring label and whose prediction is the
`j`-th smallest. -/
def confusion (ts ps : List ℕ) (i j : ℕ) : ℕ :=
  countPairs ts ps ((labelsOf ts ps).getD i 0) ((labelsOf ts ps).getD j 0)

/-- `cls_cnt = cf.sum(axis=1)` (line 243): the `i`-th row sum of the
confusion matrix. -/
def cls_cnt (ts ps : List ℕ) (i : ℕ) : ℕ :=
  ∑ j in Finset.range (labelsOf ts ps).length, confusion ts ps i j

/-- `cls_hit = np.diag(cf)` (line 244): the `i`-th diagonal entry. -/
def cls_hit (ts ps : List ℕ) (i : ℕ) : ℕ := confusion ts ps i i

/-- `cls_acc = cls_hit / cls_cnt` (line 245), an element-wise float
division modelled over ℚ. -/
def cls_acc (ts ps : List ℕ) (i : ℕ) : ℚ :=
  (cls_hit ts ps i : ℚ) / (cls_cnt ts ps i : ℚ)

end LtTrain

namespace LtTrain

/-- C2: for every 0-indexed epoch `e`, `adjust_learning_rate` sets the `lr`
of every optimizer parameter group to `lr0 * (e+1) / 5` when `e+1 ≤ 5`, to
`lr0` when `5 < e+1 ≤ 160`, to `lr0 * 0.01` when `160 < e+1 ≤ 180`, to
`lr0 * 0.0001` when `e+1 > 180`, and changes nothing else (the momentum and
weight-decay fields and the number of groups are untouched). -/
theorem C2_adjust_learning_rate (groups : List ParamGroup) (e : ℕ) (lr0 : ℚ)
    (i : ℕ) (hi : i < groups.length) :
    (adjust_learning_rate groups e lr0).length = groups.length ∧
    (e + 1 ≤ 5 →
      ((adjust_learning_rate groups e lr0).getD i default).lr
        = lr0 * (e + 1) / 5) ∧
    (5 < e + 1 → e + 1 ≤ 160 →
      ((adjust_learning_rate groups e lr0).getD i default).lr = lr0) ∧
    (160 < e + 1 → e + 1 ≤ 180 →
      ((adjust_learning_rate groups e lr0).getD i default).lr
        = lr0 * (1 / 100)) ∧
    (180 < e + 1 →
      ((adjust_learning_rate groups e lr0).getD i default).lr
        = lr0 * (1 / 10000)) ∧
    ((adjust_learning_rate groups e lr0).getD i default).momentum
      = (groups.getD i default).momentum ∧
    ((adjust_learning_rate groups e lr0).getD i default).weight_decay
      = (groups.getD i default).weight_decay := by
  have hlen : (adjust_learning_rate groups e lr0).length = groups.length :=
    List.length_map _ _
  have hget : (adjust_learning_rate groups e lr0).getD i default
      = { groups.getD i default with lr := adjust_lr lr0 e } := by
    unfold adjust_learning_rate
    rw [List.getD_eq_getElem _ _ hi, List.getD_eq_getElem _ _ (hlen ▸ hi)]
    simp [adjust_learning_rate]
  have ha : e + 1 ≤ 5 → adjust_lr lr0 e = lr0 * ((e : ℚ) + 1) / 5 := by
    intro h
    simp only [adjust_lr]
    rw [if_pos h]
    push_cast
    ring
  have hb : 5 < e + 1 → e + 1 ≤ 160 → adjust_lr lr0 e = lr0 := by
    intro h1 h2
    simp only [adjust_lr]
    rw [if_neg (by omega), if_neg (by omega), if_neg (by omega)]
  have hc : 160 < e + 1 → e + 1 ≤ 180 →
      adjust_lr lr0 e = lr0 * (1 / 100) := by
    intro h1 h2
    simp only [adjust_lr]
    rw [if_neg (by omega), if_neg (by omega), if_pos (by omega)]
  have hd : 180 < e + 1 → adjust_lr lr0 e = lr0 * (1 / 10000) := by
    intro h
    simp only [adjust_lr]
    rw [if_neg (by omega), if_pos (by omega)]
  refine ⟨hlen, ?_, ?_, ?_, ?_, ?_, ?_⟩
  · intro h
    rw [hget]
    exact ha h
  · intro h1 h2
    rw [hget]
    exact hb h1 h2
  · intro h1 h2
    rw [hget]
    exact hc h1 h2
  · intro h
    rw [hget]
    exact hd h
  · rw [hget]
  · rw [hget]

/-- C2 witness: the theorem applied at a concrete parameter-group list,
epoch 170 and base rate 1/10, where the first decay step is active. -/
theorem C2_witness :
    (adjust_learning_rate [⟨1/10, 9/10, 1/5000⟩] 170 (1/10)).length = 1 ∧
    (170 + 1 ≤ 5 →
      ((adjust_learning_rate [⟨1/10, 9/10, 1/5000⟩] 170 (1/10)).getD 0
        default).lr = (1/10) * (170 + 1) / 5) ∧
    (5 < 170 + 1 → 170 + 1 ≤ 160 →
      ((adjust_learning_rate [⟨1/10, 9/10, 1/5000⟩] 170 (1/10)).getD 0
        default).lr = 1/10) ∧
    (160 < 170 + 1 → 170 + 1 ≤ 180 →
      ((adjust_learning_rate [⟨1/10, 9/10, 1/5000⟩] 170 (1/10)).getD 0
        default).lr = (1/10) * (1 / 100)) ∧
    (180 < 170 + 1 →
      ((adjust_learning_rate [⟨1/10, 9/10, 1/5000⟩] 170 (1/10)).getD 0
        default).lr = (1/10) * (1 / 10000)) ∧
    ((adjust_learning_rate [⟨1/10, 9/10, 1/5000⟩] 170 (1/10)).getD 0
      default).momentum = (([⟨1/10, 9/10, 1/5000⟩] :
        List ParamGroup).getD 0 default).momentum ∧
    ((adjust_learning_rate [⟨1/10, 9/10, 1/5000⟩] 170 (1/10)).getD 0
      default).weight_decay = (([⟨1/10, 9/10, 1/5000⟩] :
        List ParamGroup).getD 0 default).weight_decay :=
  C2_adjust_learning_rate [⟨1/10, 9/10, 1/5000⟩] 170 (1/10) 0 (by decide)

/-- C3 counterexample: at the concrete input `loss_type = "Focal"` the
selector of `main_worker` builds no criterion at all (it warns and returns),
so focal loss is not one of the choices the selector can produce. -/
theorem C3_counterexample :
    select_criterion "Focal" none [1] = none := rfl

/-- C3 amended: the selector offers two selectable losses — `'CE'` builds a
cross-entropy criterion and `'LDAM'` builds the margin-based LDAM criterion
with `max_m = 0.5` and `s = 30` — while every other `loss_type`, including
`'Focal'`, makes `main_worker` warn and return without a criterion. -/
theorem C3_selector (w : Option (List ℚ)) (cls : List ℕ) :
    select_criterion "CE" w cls = some (.crossEntropy w) ∧
    select_criterion "LDAM" w cls = some (.ldam cls (1/2) 30 w) ∧
    select_criterion "Focal" w cls = none ∧
    (∀ lt, lt ≠ "CE" → lt ≠ "LDAM" → select_criterion lt w cls = none) := by
  refine ⟨rfl, rfl, rfl, ?_⟩
  intro lt h1 h2
  simp [select_criterion, h1, h2]

/-- C3 witness: the amended theorem applied at a concrete weight vector and
class-count list, with the fallthrough case discharged at `"Focal"`. -/
theorem C3_witness :
    select_criterion "Focal" (some [1, 1]) [5, 3] = none :=
  (C3_selector (some [1, 1]) [5, 3]).2.2.2 "Focal" (by decide) (by decide)

/-- C6: under the `'None'` train rule, `per_cls_weights` is `None` for every
epoch, and any criterion the selector then builds carries no per-class
weight. -/
theorem C6_none_rule (cls : List ℕ) (e : ℕ) :
    select_per_cls_weights "None" cls e = some none ∧
    (∀ lt c, select_criterion lt none cls = some c → c.weight = none) := by
  refine ⟨rfl, ?_⟩
  intro lt c hc
  by_cases h1 : lt = "CE"
  · subst h1
    have h : some (Criterion.crossEntropy none) = some c := hc
    cases h
    rfl
  · by_cases h2 : lt = "LDAM"
    · subst h2
      have h : some (Criterion.ldam cls (1 / 2) 30 none) = some c := hc
      cases h
      rfl
    · simp [select_criterion, h1, h2] at hc

/-- C6 witness: the theorem applied at a concrete class-count list and epoch,
with the criterion clause discharged at the cross-entropy criterion. -/
theorem C6_witness :
    select_per_cls_weights "None" [5, 3] 0 = some none ∧
    (Criterion.crossEntropy none).weight = none :=
  ⟨(C6_none_rule [5, 3] 0).1,
    (C6_none_rule [5, 3] 0).2 "CE" (.crossEntropy none) rfl⟩

/-- C8: the DRW weight computation is total exactly on epochs below 320: for
`e ≥ 320` the index `e / 160` into the two-element list `betas` is out of
range (IndexError, modelled by `none`), while every epoch `e < 320`
produces a weight vector. -/
theorem C8_drw_epoch_range (cls : List ℕ) (e : ℕ) :
    (320 ≤ e → betas[e / 160]? = none ∧ drw_per_cls_weights cls e = none) ∧
    (e < 320 → ∃ w, drw_per_cls_weights cls e = some w) := by
  constructor
  · intro h
    have hidx : 2 ≤ e / 160 := by omega
    have hnone : betas[e / 160]? = none := by
      apply List.getElem?_eq_none
      simpa [betas] using hidx
    exact ⟨hnone, by simp [drw_per_cls_weights, hnone]⟩
  · intro h
    have hidx : e / 160 = 0 ∨ e / 160 = 1 := by omega
    rcases hidx with h0 | h0 <;>
      [refine ⟨(cls.map (raw_weight 0)).map
          (fun w => w / (cls.map (raw_weight 0)).sum * cls.length), ?_⟩;
       refine ⟨(cls.map (raw_weight (9999 / 10000))).map
          (fun w => w / (cls.map (raw_weight (9999 / 10000))).sum *
            cls.length), ?_⟩] <;>
      · rw [drw_per_cls_weights, h0]
        rfl

/-- C8 witness: at epoch 320 the lookup fails, at epoch 319 it succeeds. -/
theorem C8_witness :
    (betas[(320 : ℕ) / 160]? = none ∧
      drw_per_cls_weights [2, 1] 320 = none) ∧
    (∃ w, drw_per_cls_weights [2, 1] 319 = some w) :=
  ⟨(C8_drw_epoch_range [2, 1] 320).1 (by decide),
    (C8_drw_epoch_range [2, 1] 319).2 (by decide)⟩

/-- C9: for any `train_rule` other than `'None'` and `'DRW'`, the
weight-selection step of `main_worker` only warns and never binds
`per_cls_weights` (modelled by `none`), so the criterion construction that
follows reads an unbound name. -/
theorem C9_unknown_rule (rule : String) (cls : List ℕ) (e : ℕ)
    (h1 : rule ≠ "None") (h2 : rule ≠ "DRW") :
    select_per_cls_weights rule cls e = none := by
  simp [select_per_cls_weights, h1, h2]

/-- C1: DRW re-weighting is deferred.  When every class has at least one
sample, for every epoch `e < 160` the weight vector of the DRW branch is
uniformly `1` (beta `= betas[0] = 0` makes every effective number `1`), and
for every epoch `160 ≤ e < 320` the weight of class `c` is
`(1 - 0.9999) / (1 - 0.9999 ^ n_c)` rescaled so that the weights sum to the
number of classes. -/
theorem C1_drw_deferred (l : List ℕ) (e : ℕ) (hl : ∀ n ∈ l, 1 ≤ n) :
    (e < 160 → drw_per_cls_weights l e = some (l.map fun _ => (1 : ℚ))) ∧
    (160 ≤ e → e < 320 →
      drw_per_cls_weights l e = some (drw_late_spec l) ∧
      (l ≠ [] → (drw_late_spec l).sum = l.length)) := by
  constructor
  · intro he
    have h0 : e / 160 = 0 := by omega
    have hβ : betas[e / 160]? = some 0 := by rw [h0]; rfl
    have hraw : l.map (raw_weight 0) = l.map (fun _ => (1 : ℚ)) := by
      apply List.map_congr_left
      intro n hn
      have h1 : (0 : ℚ) ^ n = 0 := zero_pow (by have := hl n hn; omega)
      simp [raw_weight, effective_num, h1]
    have hsum : (l.map (raw_weight 0)).sum = (l.length : ℚ) := by
      rw [hraw]; simp
    rw [drw_per_cls_weights, hβ]
    show some ((l.map (raw_weight 0)).map
        (fun w => w / (l.map (raw_weight 0)).sum * l.length))
      = some (l.map fun _ => (1 : ℚ))
    rw [hsum, hraw, List.map_map]
    refine congrArg some (List.map_congr_left ?_)
    intro n hn
    have hne : (l.length : ℚ) ≠ 0 := by
      have hpos : 0 < l.length := List.length_pos.mpr (List.ne_nil_of_mem hn)
      exact_mod_cast hpos.ne'
    show (1 : ℚ) / l.length * l.length = 1
    rw [div_mul_cancel₀ _ hne]
  · intro h1 h2
    have h0 : e / 160 = 1 := by omega
    have hβ : betas[e / 160]? = some (9999 / 10000) := by rw [h0]; rfl
    have hspec : drw_late_spec l
        = (l.map (raw_weight (9999 / 10000))).map
            (fun w => w * ((l.length : ℚ) /
              (l.map (raw_weight (9999 / 10000))).sum)) := rfl
    have hcode : drw_per_cls_weights l e
        = some ((l.map (raw_weight (9999 / 10000))).map
            (fun w => w / (l.map (raw_weight (9999 / 10000))).sum *
              l.length)) := by
      rw [drw_per_cls_weights, hβ]
    constructor
    · rw [hcode, hspec]
      refine congrArg some (List.map_congr_left ?_)
      intro w _
      ring
    · intro hne
      have hpos : ∀ w ∈ l.map (raw_weight (9999 / 10000)), 0 < w := by
        intro w hw
        rcases List.mem_map.mp hw with ⟨n, hn, rfl⟩
        have hn1 : 1 ≤ n := hl n hn
        have hb : ((9999 : ℚ) / 10000) ^ n < 1 :=
          pow_lt_one₀ (by norm_num) (by norm_num) (by omega)
        have : (0 : ℚ) < 1 - (9999 / 10000 : ℚ) ^ n := by linarith
        exact div_pos (by norm_num) this
      have hmapne : l.map (raw_weight (9999 / 10000)) ≠ [] := by
        simpa using hne
      have hs : (0 : ℚ) < (l.map (raw_weight (9999 / 10000))).sum :=
        List.sum_pos _ hpos hmapne
      rw [hspec]
      rw [show ((l.map (raw_weight (9999 / 10000))).map
          (fun w => w * ((l.length : ℚ) /
            (l.map (raw_weight (9999 / 10000))).sum))).sum
        = (l.map (raw_weight (9999 / 10000))).sum *
            ((l.length : ℚ) / (l.map (raw_weight (9999 / 10000))).sum) by
          simpa using List.sum_map_mul_right
            (l.map (raw_weight (9999 / 10000))) id
            ((l.length : ℚ) / (l.map (raw_weight (9999 / 10000))).sum)]
      rw [mul_comm, div_mul_cancel₀ _ (ne_of_gt hs)]

/-- C1 witness: the theorem applied at the class counts `[2, 1]`, at epoch 0
(uniform weights) and at epoch 200 (the deferred weighting is active). -/
theorem C1_witness :
    drw_per_cls_weights [2, 1] 0 = some ([2, 1].map fun _ => (1 : ℚ)) ∧
    (drw_per_cls_weights [2, 1] 200 = some (drw_late_spec [2, 1]) ∧
      ([2, 1] ≠ ([] : List ℕ) → (drw_late_spec [2, 1]).sum
        = ([2, 1] : List ℕ).length)) :=
  ⟨(C1_drw_deferred [2, 1] 0 (by decide)).1 (by decide),
    (C1_drw_deferred [2, 1] 200 (by decide)).2 (by decide) (by decide)⟩

/-- The fold of `train` over an epoch, from arbitrary meter states: sums and
counts accumulate the size-weighted batch values. -/
theorem train_foldl_eq (batches : List Batch) (m1 m2 : AverageMeter) :
    batches.foldl trainStep (m1, m2)
      = (⟨m1.sum + (batches.map fun b => b.acc1 * (b.size : ℚ)).sum,
          m1.count + (batches.map Batch.size).sum⟩,
         ⟨m2.sum + (batches.map fun b => b.loss * (b.size : ℚ)).sum,
          m2.count + (batches.map Batch.size).sum⟩) := by
  induction batches generalizing m1 m2 with
  | nil => simp
  | cons b bs ih =>
    simp only [List.foldl_cons, List.map_cons, List.sum_cons]
    rw [ih]
    simp only [trainStep, AverageMeter.update, Prod.mk.injEq,
      AverageMeter.mk.injEq]
    refine ⟨⟨by ring, by omega⟩, by ring, by omega⟩

/-- C7: `train` returns the pair (running average top-1 accuracy, running
average loss) over the epoch's batches, each batch weighted by its sample
count `input.size(0)`: the returned values are the sums of batch value times
batch size divided by the total number of samples seen. -/
theorem C7_train_averages (batches : List Batch)
    (h : 0 < (batches.map Batch.size).sum) :
    (train batches).1
      = (batches.map fun b => b.acc1 * (b.size : ℚ)).sum /
          ((batches.map Batch.size).sum : ℚ) ∧
    (train batches).2
      = (batches.map fun b => b.loss * (b.size : ℚ)).sum /
          ((batches.map Batch.size).sum : ℚ) := by
  unfold train
  rw [train_foldl_eq]
  simp [AverageMeter.avg]

/-- C7 witness: the theorem applied to a two-batch epoch with batch sizes 2
and 1. -/
theorem C7_witness :
    (train [⟨2, 3, 50⟩, ⟨1, 6, 80⟩]).1
      = (([⟨2, 3, 50⟩, ⟨1, 6, 80⟩] : List Batch).map
          fun b => b.acc1 * (b.size : ℚ)).sum /
        ((([⟨2, 3, 50⟩, ⟨1, 6, 80⟩] : List Batch).map Batch.size).sum : ℚ) ∧
    (train [⟨2, 3, 50⟩, ⟨1, 6, 80⟩]).2
      = (([⟨2, 3, 50⟩, ⟨1, 6, 80⟩] : List Batch).map
          fun b => b.loss * (b.size : ℚ)).sum /
        ((([⟨2, 3, 50⟩, ⟨1, 6, 80⟩] : List Batch).map Batch.size).sum : ℚ) :=
  C7_train_averages [⟨2, 3, 50⟩, ⟨1, 6, 80⟩] (by decide)

/-- `foldr max` from a shifted seed: the seed commutes out. -/
theorem foldr_max_init (l : List ℚ) (a m : ℚ) :
    l.foldr max (max a m) = max a (l.foldr max m) := by
  induction l with
  | nil => rfl
  | cons b l ih => simp only [List.foldr_cons, ih, max_left_comm]

/-- The left fold of `max` used by `main_worker` is a right fold. -/
theorem foldl_max_eq_foldr (l : List ℚ) (m : ℚ) :
    l.foldl (fun b a => max a b) m = l.foldr max m := by
  induction l generalizing m with
  | nil => rfl
  | cons b l ih =>
    simp only [List.foldl_cons, List.foldr_cons]
    rw [ih (max b m), foldr_max_init]

/-- `bestAcc` is the same fold written with `foldr`. -/
theorem bestAcc_eq_foldr (l : List ℚ) : bestAcc l = l.foldr max 0 :=
  foldl_max_eq_foldr l 0

/-- Peeling one epoch off `bestAcc`. -/
theorem bestAcc_cons (a : ℚ) (l : List ℚ) :
    bestAcc (a :: l) = max a (bestAcc l) := by
  rw [bestAcc_eq_foldr, bestAcc_eq_foldr, List.foldr_cons]

/-- `best_acc1` is bounded below by its initial value `0`. -/
theorem bestAcc_nonneg (l : List ℚ) : 0 ≤ bestAcc l := by
  induction l with
  | nil => exact le_refl 0
  | cons a l ih => rw [bestAcc_cons]; exact le_max_of_le_right ih

/-- Every recorded accuracy is bounded by `best_acc1`. -/
theorem le_bestAcc (l : List ℚ) (a : ℚ) (ha : a ∈ l) : a ≤ bestAcc l := by
  induction l with
  | nil => cases ha
  | cons b l ih =>
    rw [bestAcc_cons]
    rcases List.mem_cons.mp ha with rfl | h
    · exact le_max_left _ _
    · exact le_max_of_le_right (ih h)

/-- `best_acc1` is below `x` exactly when `x` beats the initial `0` and
every recorded accuracy. -/
theorem bestAcc_lt_iff (l : List ℚ) (x : ℚ) :
    bestAcc l < x ↔ 0 < x ∧ ∀ a ∈ l, a < x := by
  induction l with
  | nil => simp [bestAcc]
  | cons b l ih =>
    rw [bestAcc_cons, max_lt_iff, ih]
    constructor
    · rintro ⟨hb, hx, hall⟩
      exact ⟨hx, by
        intro a ha
        rcases List.mem_cons.mp ha with rfl | h
        · exact hb
        · exact hall a h⟩
    · rintro ⟨hx, hall⟩
      exact ⟨hall b (List.mem_cons_self b l), hx,
        fun a ha => hall a (List.mem_cons_of_mem b ha)⟩

/-- `best_acc1` never exceeds an upper bound of `0` and the accuracies. -/
theorem bestAcc_le_iff (l : List ℚ) (x : ℚ) :
    bestAcc l ≤ x ↔ 0 ≤ x ∧ ∀ a ∈ l, a ≤ x := by
  induction l with
  | nil => simp [bestAcc]
  | cons b l ih =>
    rw [bestAcc_cons, max_le_iff, ih]
    constructor
    · rintro ⟨hb, hx, hall⟩
      exact ⟨hx, by
        intro a ha
        rcases List.mem_cons.mp ha with rfl | h
        · exact hb
        · exact hall a h⟩
    · rintro ⟨hx, hall⟩
      exact ⟨hall b (List.mem_cons_self b l), hx,
        fun a ha => hall a (List.mem_cons_of_mem b ha)⟩

/-- When accuracies are nonnegative and at least one epoch ran, `best_acc1`
is one of the recorded accuracies. -/
theorem bestAcc_mem (l : List ℚ) (hnn : ∀ a ∈ l, 0 ≤ a) (hne : l ≠ []) :
    bestAcc l ∈ l := by
  induction l with
  | nil => exact absurd rfl hne
  | cons b l ih =>
    rw [bestAcc_cons]
    rcases eq_or_ne l [] with rfl | hl
    · have hb : 0 ≤ b := hnn b (List.mem_cons_self b [])
      rw [show bestAcc [] = 0 from rfl, max_eq_left hb]
      exact List.mem_cons_self b []
    · rcases le_total b (bestAcc l) with h | h
      · rw [max_eq_right h]
        exact List.mem_cons_of_mem b
          (ih (fun a ha => hnn a (List.mem_cons_of_mem b ha)) hl)
      · rw [max_eq_left h]
        exact List.mem_cons_self b l

/-- A bounded quantifier over a prefix of the accuracy list is a bounded
quantifier over epoch indices. -/
theorem forall_mem_take_iff (accs : List ℚ) (i : ℕ) (hi : i ≤ accs.length)
    (P : ℚ → Prop) :
    (∀ a ∈ accs.take i, P a) ↔ ∀ j, j < i → P (accs.getD j 0) := by
  constructor
  · intro h j hj
    have hjl : j < accs.length := lt_of_lt_of_le hj hi
    rw [List.getD_eq_getElem _ _ hjl]
    apply h
    have hjt : j < (accs.take i).length := by
      rw [List.length_take]
      omega
    have heq1 : (accs.take i)[j] = accs[j] := List.getElem_take _
    rw [← heq1]
    exact List.getElem_mem _
  · intro h a ha
    rcases List.mem_iff_getElem.mp ha with ⟨j, hj, rfl⟩
    have hjl : j < i := by
      have hj' := hj
      rw [List.length_take] at hj'
      omega
    have hjlen : j < accs.length := lt_of_lt_of_le hjl hi
    have := h j hjl
    rw [List.getD_eq_getElem _ _ hjlen] at this
    have heq2 : (accs.take i)[j] = accs[j] := List.getElem_take _
    rw [heq2]
    exact this

/-- C4 counterexample: a first epoch with validation accuracy `0` — a valid
accuracy value — is not flagged `is_best` by the code, although it strictly
exceeds every (vacuously, none) previous epoch's accuracy. -/
theorem C4_counterexample :
    isBest [(0 : ℚ)] 0 = false ∧ ([(0 : ℚ)].take 0) = [] := by
  constructor
  · decide
  · rfl

/-- C4 amended: with nonnegative accuracies, after every completed epoch
`best_acc1` equals the maximum accuracy over the epochs run so far (so it
never decreases), and the checkpoint of epoch `i` is flagged `is_best`
exactly when that epoch's accuracy strictly exceeds every previous epoch's
accuracy and also strictly exceeds the initial best value `0`. -/
theorem C4_best_checkpoint (accs : List ℚ) (hnn : ∀ a ∈ accs, 0 ≤ a) :
    (∀ i, bestAcc (accs.take i) ≤ bestAcc (accs.take (i + 1))) ∧
    (∀ i, i < accs.length →
      bestAcc (accs.take (i + 1)) ∈ accs.take (i + 1) ∧
      ∀ a ∈ accs.take (i + 1), a ≤ bestAcc (accs.take (i + 1))) ∧
    (∀ i, i < accs.length →
      (isBest accs i = true ↔
        (0 < accs.getD i 0 ∧
          ∀ j, j < i → accs.getD j 0 < accs.getD i 0))) := by
  refine ⟨?_, ?_, ?_⟩
  · intro i
    rw [bestAcc_le_iff]
    refine ⟨bestAcc_nonneg _, ?_⟩
    intro a ha
    apply le_bestAcc
    have : accs.take i = (accs.take (i + 1)).take i := by
      rw [List.take_take, min_eq_left (by omega)]
    rw [this] at ha
    exact List.take_subset _ _ ha
  · intro i hi
    have hne : accs.take (i + 1) ≠ [] := by
      have : (accs.take (i + 1)).length = min (i + 1) accs.length :=
        List.length_take _ _
      intro hcon
      rw [hcon] at this
      simp at this
      omega
    exact ⟨bestAcc_mem _ (fun a ha => hnn a (List.take_subset _ _ ha)) hne,
      fun a ha => le_bestAcc _ a ha⟩
  · intro i hi
    unfold isBest
    rw [decide_eq_true_iff, bestAcc_lt_iff,
      forall_mem_take_iff accs i (by omega)]

/-- C4 witness: the amended theorem applied to the accuracy trace
`[40, 30, 50]`, evaluated at the third epoch, which is flagged best. -/
theorem C4_witness :
    bestAcc ([(40 : ℚ), 30, 50].take 2) ≤ bestAcc ([(40 : ℚ), 30, 50].take 3) ∧
    (isBest [(40 : ℚ), 30, 50] 2 = true ↔
      (0 < ([(40 : ℚ), 30, 50]).getD 2 0 ∧
        ∀ j, j < 2 → ([(40 : ℚ), 30, 50]).getD j 0
          < ([(40 : ℚ), 30, 50]).getD 2 0)) :=
  ⟨(C4_best_checkpoint [40, 30, 50] (by norm_num)).1 2,
    (C4_best_checkpoint [40, 30, 50] (by norm_num)).2.2 2 (by decide)⟩

/-- Every element is bounded by the `foldr max` of its list. -/
theorem le_foldr_max (l : List ℕ) (x : ℕ) (hx : x ∈ l) :
    x ≤ l.foldr max 0 := by
  induction l with
  | nil => cases hx
  | cons a l ih =>
    rcases List.mem_cons.mp hx with rfl | h
    · exact le_max_left _ _
    · exact le_trans (ih h) (le_max_right _ _)

/-- `foldr max` never exceeds an upper bound of the list. -/
theorem foldr_max_le_nat (l : List ℕ) (k : ℕ) (h : ∀ x ∈ l, x ≤ k) :
    l.foldr max 0 ≤ k := by
  induction l with
  | nil => exact Nat.zero_le k
  | cons a l ih =>
    exact max_le (h a (List.mem_cons_self a l))
      (ih fun x hx => h x (List.mem_cons_of_mem a hx))

/-- Every label occurring among targets or predictions is on the label axis
of the confusion matrix. -/
theorem mem_labelsOf (ts ps : List ℕ) (x : ℕ) (hx : x ∈ ts ++ ps) :
    x ∈ labelsOf ts ps := by
  unfold labelsOf
  rw [List.mem_filter]
  refine ⟨?_, by simpa using hx⟩
  rw [List.mem_range]
  exact Nat.lt_succ_of_le (le_foldr_max _ _ hx)

/-- When targets cover every class below `k` and both targets and
predictions stay below `k`, the label axis of the confusion matrix is
exactly `0, …, k - 1`. -/
theorem labelsOf_eq_range (ts ps : List ℕ) (k : ℕ) (hk : 0 < k)
    (hts : ∀ t ∈ ts, t < k) (hps : ∀ p ∈ ps, p < k)
    (hcov : ∀ c, c < k → c ∈ ts) :
    labelsOf ts ps = List.range k := by
  have hmax : (ts ++ ps).foldr max 0 = k - 1 := by
    apply le_antisymm
    · apply foldr_max_le_nat
      intro x hx
      rcases List.mem_append.mp hx with h | h
      · have := hts x h; omega
      · have := hps x h; omega
    · exact le_foldr_max _ _
        (List.mem_append_left _ (hcov (k - 1) (by omega)))
  unfold labelsOf
  rw [hmax, show k - 1 + 1 = k by omega]
  apply List.filter_eq_self.mpr
  intro x hx
  rw [List.mem_range] at hx
  exact decide_eq_true (List.mem_append_left _ (hcov x hx))

/-- Looking up the `i`-th entry of `List.range k`. -/
theorem getD_range (k i : ℕ) (hi : i < k) : (List.range k).getD i 0 = i := by
  rw [List.getD_eq_getElem _ _ (by simpa using hi), List.getElem_range]

/-- Summing one row of per-(true, predicted) counts over all predicted
labels yields the count of the true label alone. -/
theorem sum_countPairs_row (L : List (ℕ × ℕ)) (a k : ℕ)
    (h : ∀ x ∈ L, x.2 < k) :
    ∑ j in Finset.range k, L.countP (fun tp => tp.1 == a && tp.2 == j)
      = L.countP (fun tp => tp.1 == a) := by
  induction L with
  | nil => simp
  | cons x L ih =>
    simp only [List.countP_cons]
    rw [Finset.sum_add_distrib,
      ih (fun y hy => h y (List.mem_cons_of_mem x hy))]
    congr 1
    simp only [Bool.and_eq_true, beq_iff_eq]
    by_cases hx : x.1 = a
    · have hx2 : x.2 ∈ Finset.range k :=
        Finset.mem_range.mpr (h x (List.mem_cons_self x L))
      simp only [hx, eq_self_iff_true, true_and, if_true]
      rw [Finset.sum_ite_eq (Finset.range k) x.2 (fun _ => 1), if_pos hx2]
    · simp [hx]

/-- Counting pairs of the zipped (targets, predictions) stream by their true
label is counting in the target list, provided the lists have equal
length. -/
theorem countP_zip_fst (ts ps : List ℕ) (a : ℕ) (h : ts.length = ps.length) :
    (ts.zip ps).countP (fun tp => tp.1 == a) = ts.count a := by
  induction ts generalizing ps with
  | nil => simp
  | cons t ts ih =>
    cases ps with
    | nil => simp at h
    | cons p ps =>
      simp only [List.zip_cons_cons, List.countP_cons, List.count_cons]
      rw [ih ps (by simpa using h)]

/-- C5: for a validation pass with equally many targets and predictions, all
below the class count `k` and with every class represented among the
targets, `validate`'s per-class accuracy of class `c` is the `c`-th diagonal
entry of the confusion matrix over the `c`-th row sum, which is exactly the
number of samples with true label `c` predicted as `c` over the number of
samples with true label `c`. -/
theorem C5_per_class_accuracy (ts ps : List ℕ) (k : ℕ)
    (hts : ∀ t ∈ ts, t < k) (hps : ∀ p ∈ ps, p < k)
    (hcov : ∀ c, c < k → c ∈ ts) (hlen : ts.length = ps.length)
    (c : ℕ) (hc : c < k) :
    cls_hit ts ps c
      = (ts.zip ps).countP (fun tp => tp.1 == c && tp.2 == c) ∧
    cls_cnt ts ps c = ts.count c ∧
    cls_acc ts ps c
      = ((ts.zip ps).countP (fun tp => tp.1 == c && tp.2 == c) : ℚ)
          / (ts.count c : ℚ) := by
  have hk : 0 < k := by omega
  have hlab : labelsOf ts ps = List.range k :=
    labelsOf_eq_range ts ps k hk hts hps hcov
  have hzip2 : ∀ x ∈ ts.zip ps, x.2 < k := by
    intro x hx
    obtain ⟨a, b⟩ := x
    exact hps b (List.of_mem_zip hx).2
  have hhit : cls_hit ts ps c
      = (ts.zip ps).countP (fun tp => tp.1 == c && tp.2 == c) := by
    unfold cls_hit confusion countPairs
    rw [hlab, getD_range k c hc]
  have hcnt : cls_cnt ts ps c = ts.count c := by
    unfold cls_cnt confusion countPairs
    rw [hlab, List.length_range]
    calc ∑ j in Finset.range k, (ts.zip ps).countP
          (fun tp => tp.1 == (List.range k).getD c 0 &&
            tp.2 == (List.range k).getD j 0)
        = ∑ j in Finset.range k, (ts.zip ps).countP
            (fun tp => tp.1 == c && tp.2 == j) := by
          apply Finset.sum_congr rfl
          intro j hj
          rw [getD_range k c hc, getD_range k j (Finset.mem_range.mp hj)]
      _ = (ts.zip ps).countP (fun tp => tp.1 == c) :=
          sum_countPairs_row _ c k hzip2
      _ = ts.count c := countP_zip_fst ts ps c hlen
  exact ⟨hhit, hcnt, by unfold cls_acc; rw [hhit, hcnt]⟩

/-- C5 witness: the theorem applied at the concrete validation trace with
targets `[0, 1, 0]`, predictions `[0, 1, 1]`, two classes, evaluated at
class 0. -/
theorem C5_witness :
    cls_hit [0, 1, 0] [0, 1, 1] 0
      = (([0, 1, 0] : List ℕ).zip [0, 1, 1]).countP
          (fun tp => tp.1 == 0 && tp.2 == 0) ∧
    cls_cnt [0, 1, 0] [0, 1, 1] 0 = ([0, 1, 0] : List ℕ).count 0 ∧
    cls_acc [0, 1, 0] [0, 1, 1] 0
      = ((([0, 1, 0] : List ℕ).zip [0, 1, 1]).countP
          (fun tp => tp.1 == 0 && tp.2 == 0) : ℚ)
          / ((([0, 1, 0] : List ℕ).count 0 : ℕ) : ℚ) :=
  C5_per_class_accuracy [0, 1, 0] [0, 1, 1] 2 (by decide) (by decide)
    (by decide) (by decide) 0 (by decide)

/-- C10: the element-wise division `cls_hit / cls_cnt` is unguarded — a
class that occurs among the predictions but never among the true targets is
on the label axis of the confusion matrix yet has row sum `0`, so its
per-class accuracy divides by zero. -/
theorem C10_unguarded_division (ts ps : List ℕ) (c : ℕ)
    (hcp : c ∈ ps) (hct : c ∉ ts) :
    c ∈ labelsOf ts ps ∧
    ∀ i, (labelsOf ts ps).getD i 0 = c → cls_cnt ts ps i = 0 := by
  refine ⟨mem_labelsOf ts ps c (List.mem_append_right _ hcp), ?_⟩
  intro i hi
  unfold cls_cnt confusion countPairs
  rw [hi]
  apply Finset.sum_eq_zero
  intro j hj
  apply List.countP_eq_zero.mpr
  intro x hx
  obtain ⟨a, b⟩ := x
  have ha : a ∈ ts := (List.of_mem_zip hx).1
  simp only [Bool.and_eq_true, beq_iff_eq, not_and]
  intro hac _
  exact hct (hac ▸ ha)

/-- C10 witness: with targets `[0, 0]` and predictions `[0, 1]`, class 1 is
on the label axis but its row sum — the divisor of its per-class accuracy —
is zero. -/
theorem C10_witness :
    1 ∈ labelsOf [0, 0] [0, 1] ∧ cls_cnt [0, 0] [0, 1] 1 = 0 :=
  ⟨(C10_unguarded_division [0, 0] [0, 1] 1 (by decide) (by decide)).1,
    (C10_unguarded_division [0, 0] [0, 1] 1 (by decide) (by decide)).2 1
      (by decide)⟩

/-- C9 witness: the theorem applied at the concrete rule `"Resample"`. -/
theorem C9_witness :
    select_per_cls_weights "Resample" [5, 3] 0 = none :=
  C9_unknown_rule "Resample" [5, 3] 0 (by decide) (by decide)

end LtTrain
